import Mathlib

/-!
Verification of the verdict-buffering and segment-merge core.

This development shallowly embeds the changepoint-analysis core of the
repository: the two-tier input buffer of test verdicts, the output-buffer
(segment store) merge state machine, the verdict constructor, the history
encoder/decoder, and the read-side projection `toProtoBuffer`.

The read-side projection is translated directly from the source
(`toProtoBuffer` in the rpc server file).  The input buffer, output buffer,
verdict constructor and history codec are present in the repository only
through their test files; their definitions below are modelled from the
specification, as marked in each doc comment.
-/

set_option maxHeartbeats 1000000

namespace LuciAnalysis

/-- One group of test-result attempts sharing a retry/run identity
(`inputbuffer.Run` in the source): expected/unexpected result counts
(skipped results excluded) and a duplicate marker. -/
structure Run where
  expectedResultCount : Nat
  unexpectedResultCount : Nat
  isDuplicate : Bool
deriving DecidableEq, Repr, Inhabited

/-- Details of a verdict that is not "simple expected"
(`inputbuffer.VerdictDetails`): exoneration flag plus the ordered run list. -/
structure VerdictDetails where
  isExonerated : Bool
  runs : List Run
deriving DecidableEq, Repr, Inhabited

/-- One test verdict at one commit position (`inputbuffer.PositionVerdict`).
`hour` is a timestamp truncated to the hour, modelled as hours since epoch.
Invariant (spec section 3): if `isSimpleExpected` is true, `details` is empty. -/
structure PositionVerdict where
  commitPosition : Nat
  hour : Nat
  isSimpleExpected : Bool
  details : VerdictDetails
deriving DecidableEq, Repr, Inhabited

/-- An ordered sequence of verdicts (`inputbuffer.History`). -/
structure History where
  verdicts : List PositionVerdict
deriving DecidableEq, Repr, Inhabited

/-- Segment lifecycle state (`pb.SegmentState`, restricted to the two states
that a stored Segment can take per spec section 3). -/
inductive SegmentState where
  | finalizing
  | finalized
deriving DecidableEq, Repr, Inhabited

/-- The additive aggregate of result/run/verdict counts (`pb.Counts`). -/
structure Counts where
  totalResults : Nat
  unexpectedResults : Nat
  totalRuns : Nat
  unexpectedUnretriedRuns : Nat
  unexpectedAfterRetryRuns : Nat
  flakyRuns : Nat
  totalVerdicts : Nat
  unexpectedVerdicts : Nat
  flakyVerdicts : Nat
deriving DecidableEq, Repr, Inhabited

/-- Field-wise addition of two `Counts` (`addCounts` semantics of the spec:
the structure is a commutative monoid under field-wise addition). -/
def addCounts (a b : Counts) : Counts where
  totalResults := a.totalResults + b.totalResults
  unexpectedResults := a.unexpectedResults + b.unexpectedResults
  totalRuns := a.totalRuns + b.totalRuns
  unexpectedUnretriedRuns := a.unexpectedUnretriedRuns + b.unexpectedUnretriedRuns
  unexpectedAfterRetryRuns := a.unexpectedAfterRetryRuns + b.unexpectedAfterRetryRuns
  flakyRuns := a.flakyRuns + b.flakyRuns
  totalVerdicts := a.totalVerdicts + b.totalVerdicts
  unexpectedVerdicts := a.unexpectedVerdicts + b.unexpectedVerdicts
  flakyVerdicts := a.flakyVerdicts + b.flakyVerdicts

/-- A closed or still-open contiguous range of commit positions with stable
behavior (`pb.Segment`).  End fields are zero while FINALIZING. -/
structure Segment where
  state : SegmentState
  hasStartChangepoint : Bool
  startPosition : Nat
  startHour : Nat
  startPositionLowerBound99 : Nat
  startPositionUpperBound99 : Nat
  endPosition : Nat
  endHour : Nat
  finalizedCounts : Counts
  mostRecentUnexpectedResultHour : Nat
deriving DecidableEq, Repr, Inhabited

/-- The output buffer: at most one FINALIZING segment plus the ordered list
of FINALIZED segments (spec section 3, "Branch Output State"). -/
structure BranchOutputState where
  finalizingSegment : Option Segment
  finalizedSegments : List Segment
deriving DecidableEq, Repr, Inhabited

/-- Modelled from the spec: the **combine rule** of section 4.3 for
`UpdateOutputBuffer` (file `testvariantbranch.go`, absent from the sources).
Start fields come from the existing (earlier) FINALIZING segment, end fields
from the evicted (later) segment, counts are summed field-wise,
`mostRecentUnexpectedResultHour` is the max, and the state is the evicted
segment's state. -/
def combineSegment (old new : Segment) : Segment where
  state := new.state
  hasStartChangepoint := old.hasStartChangepoint
  startPosition := old.startPosition
  startHour := old.startHour
  startPositionLowerBound99 := old.startPositionLowerBound99
  startPositionUpperBound99 := old.startPositionUpperBound99
  endPosition := new.endPosition
  endHour := new.endHour
  finalizedCounts := addCounts old.finalizedCounts new.finalizedCounts
  mostRecentUnexpectedResultHour :=
    max old.mostRecentUnexpectedResultHour new.mostRecentUnexpectedResultHour

/-- Modelled from the spec: the output-buffer eviction merge
`UpdateOutputBuffer` of section 4.3 (file `testvariantbranch.go`, absent from
the sources).  `none` models the fatal, non-recoverable error (a panic in the
original): raised when a FINALIZING segment exists but no evicted segment has
state FINALIZING, or when `evictedSegments` is empty (the input is required
to be non-empty).
1. No existing FINALIZING segment: all but the last evicted segment are
   appended to the FINALIZED list in order; the last becomes the new
   FINALIZING segment unmodified.
2. Existing FINALIZING segment: it is combined with `evictedSegments[0]`;
   a FINALIZING combination becomes the new FINALIZING segment directly,
   a FINALIZED combination is appended to the FINALIZED list and the
   remainder is processed as in case 1. -/
def UpdateOutputBuffer (st : BranchOutputState) (evictedSegments : List Segment) :
    Option BranchOutputState :=
  match st.finalizingSegment with
  | none =>
    match evictedSegments.getLast? with
    | none => none
    | some lastSeg =>
      some ⟨some lastSeg, st.finalizedSegments ++ evictedSegments.dropLast⟩
  | some fin =>
    if evictedSegments.any (fun s => decide (s.state = SegmentState.finalizing)) then
      match evictedSegments with
      | [] => none
      | e0 :: rest =>
        let combined := combineSegment fin e0
        match combined.state with
        | SegmentState.finalizing => some ⟨some combined, st.finalizedSegments⟩
        | SegmentState.finalized =>
          match rest.getLast? with
          | none => some ⟨none, st.finalizedSegments ++ [combined]⟩
          | some lastSeg =>
            some ⟨some lastSeg, st.finalizedSegments ++ [combined] ++ rest.dropLast⟩
    else none

theorem mem_of_getLast?_some {α : Type} : ∀ {l : List α} {a : α}, l.getLast? = some a → a ∈ l
  | [], _, h => by simp at h
  | [_], _, h => by simp_all
  | _ :: x :: t, a, h => by
    rw [List.getLast?_cons_cons] at h
    exact List.mem_cons_of_mem _ (mem_of_getLast?_some h)

/-- C1: when a FINALIZING segment exists and the first evicted segment is
FINALIZED (the contract requiring the batch to end in a FINALIZING segment),
the merge appends the combination of the two to the FINALIZED list — start
fields from the pre-existing FINALIZING segment, end fields from
`evictedSegments[0]`, field-wise summed counts, max
`mostRecentUnexpectedResultHour`, state FINALIZED — and the remaining
evicted segments are processed as in the no-prior-state case: all but the
last appended in order, the last installed unmodified as the new FINALIZING
segment. -/
theorem updateOutputBuffer_combine_into_finalized
    (st : BranchOutputState) (fin e0 lastSeg : Segment) (rest : List Segment)
    (hfin : st.finalizingSegment = some fin)
    (h0 : e0.state = SegmentState.finalized)
    (hlast : rest.getLast? = some lastSeg)
    (hfz : lastSeg.state = SegmentState.finalizing) :
    UpdateOutputBuffer st (e0 :: rest) =
      some ⟨some lastSeg,
            st.finalizedSegments ++ [combineSegment fin e0] ++ rest.dropLast⟩ ∧
    (combineSegment fin e0).state = SegmentState.finalized ∧
    (combineSegment fin e0).startPosition = fin.startPosition ∧
    (combineSegment fin e0).startHour = fin.startHour ∧
    (combineSegment fin e0).hasStartChangepoint = fin.hasStartChangepoint ∧
    (combineSegment fin e0).startPositionLowerBound99 = fin.startPositionLowerBound99 ∧
    (combineSegment fin e0).startPositionUpperBound99 = fin.startPositionUpperBound99 ∧
    (combineSegment fin e0).endPosition = e0.endPosition ∧
    (combineSegment fin e0).endHour = e0.endHour ∧
    (combineSegment fin e0).finalizedCounts =
      addCounts fin.finalizedCounts e0.finalizedCounts ∧
    (combineSegment fin e0).mostRecentUnexpectedResultHour =
      max fin.mostRecentUnexpectedResultHour e0.mostRecentUnexpectedResultHour := by
  have hmem : lastSeg ∈ e0 :: rest :=
    List.mem_cons_of_mem _ (mem_of_getLast?_some hlast)
  have hany : (e0 :: rest).any
      (fun s => decide (s.state = SegmentState.finalizing)) = true :=
    List.any_eq_true.mpr ⟨lastSeg, hmem, by simp [hfz]⟩
  refine ⟨?_, by simp [combineSegment, h0], rfl, rfl, rfl, rfl, rfl, rfl, rfl, rfl, rfl⟩
  simp only [UpdateOutputBuffer, hfin, hany, if_true]
  have hcs : (combineSegment fin e0).state = SegmentState.finalized := by
    simp [combineSegment, h0]
  simp [hcs, hlast]

/-- Witness for C1, instantiated at the concrete data of the repository's
"Combine finalizing segment with finalized segment" test. -/
theorem updateOutputBuffer_combine_into_finalized_witness :
    (BranchOutputState.mk
        (some ⟨SegmentState.finalizing, true, 100, 1, 90, 110, 0, 0,
               ⟨30, 5, 20, 2, 3, 4, 10, 1, 2⟩, 7⟩) []).finalizingSegment =
      some ⟨SegmentState.finalizing, true, 100, 1, 90, 110, 0, 0,
            ⟨30, 5, 20, 2, 3, 4, 10, 1, 2⟩, 7⟩ ∧
    (⟨SegmentState.finalized, false, 200, 100, 190, 210, 400, 400,
        ⟨50, 3, 40, 5, 6, 7, 20, 3, 2⟩, 10⟩ : Segment).state = SegmentState.finalized ∧
    ([(⟨SegmentState.finalizing, true, 500, 500, 490, 510, 0, 0,
        ⟨0, 0, 0, 0, 0, 0, 0, 0, 0⟩, 0⟩ : Segment)]).getLast? =
      some ⟨SegmentState.finalizing, true, 500, 500, 490, 510, 0, 0,
            ⟨0, 0, 0, 0, 0, 0, 0, 0, 0⟩, 0⟩ ∧
    (UpdateOutputBuffer
        (BranchOutputState.mk
          (some ⟨SegmentState.finalizing, true, 100, 1, 90, 110, 0, 0,
                 ⟨30, 5, 20, 2, 3, 4, 10, 1, 2⟩, 7⟩) [])
        [⟨SegmentState.finalized, false, 200, 100, 190, 210, 400, 400,
            ⟨50, 3, 40, 5, 6, 7, 20, 3, 2⟩, 10⟩,
         ⟨SegmentState.finalizing, true, 500, 500, 490, 510, 0, 0,
            ⟨0, 0, 0, 0, 0, 0, 0, 0, 0⟩, 0⟩] =
      some ⟨some ⟨SegmentState.finalizing, true, 500, 500, 490, 510, 0, 0,
                  ⟨0, 0, 0, 0, 0, 0, 0, 0, 0⟩, 0⟩,
            [] ++ [combineSegment
                ⟨SegmentState.finalizing, true, 100, 1, 90, 110, 0, 0,
                 ⟨30, 5, 20, 2, 3, 4, 10, 1, 2⟩, 7⟩
                ⟨SegmentState.finalized, false, 200, 100, 190, 210, 400, 400,
                 ⟨50, 3, 40, 5, 6, 7, 20, 3, 2⟩, 10⟩] ++
              ([(⟨SegmentState.finalizing, true, 500, 500, 490, 510, 0, 0,
                  ⟨0, 0, 0, 0, 0, 0, 0, 0, 0⟩, 0⟩ : Segment)]).dropLast⟩) :=
  by
  refine ⟨rfl, rfl, rfl, ?_⟩
  apply (updateOutputBuffer_combine_into_finalized _ _ _ _ _ ?_ ?_ ?_ ?_).1 <;> rfl

/-- C2: when a FINALIZING segment exists and the evicted list is a single
FINALIZING segment, the combination (start fields from the existing segment,
summed counts, max unexpected-result hour, state FINALIZING) becomes the new
FINALIZING segment directly and nothing is appended to the FINALIZED list. -/
theorem updateOutputBuffer_combine_into_finalizing
    (st : BranchOutputState) (fin e0 : Segment)
    (hfin : st.finalizingSegment = some fin)
    (h0 : e0.state = SegmentState.finalizing) :
    UpdateOutputBuffer st [e0] =
      some ⟨some (combineSegment fin e0), st.finalizedSegments⟩ ∧
    (combineSegment fin e0).state = SegmentState.finalizing ∧
    (combineSegment fin e0).startPosition = fin.startPosition ∧
    (combineSegment fin e0).startHour = fin.startHour ∧
    (combineSegment fin e0).hasStartChangepoint = fin.hasStartChangepoint ∧
    (combineSegment fin e0).startPositionLowerBound99 = fin.startPositionLowerBound99 ∧
    (combineSegment fin e0).startPositionUpperBound99 = fin.startPositionUpperBound99 ∧
    (combineSegment fin e0).finalizedCounts =
      addCounts fin.finalizedCounts e0.finalizedCounts ∧
    (combineSegment fin e0).mostRecentUnexpectedResultHour =
      max fin.mostRecentUnexpectedResultHour e0.mostRecentUnexpectedResultHour := by
  have hany : ([e0]).any
      (fun s => decide (s.state = SegmentState.finalizing)) = true := by
    simp [h0]
  have hcs : (combineSegment fin e0).state = SegmentState.finalizing := by
    simp [combineSegment, h0]
  refine ⟨?_, hcs, rfl, rfl, rfl, rfl, rfl, rfl, rfl⟩
  simp only [UpdateOutputBuffer, hfin, hany, if_true]
  simp [hcs]

/-- Witness for C2, instantiated at the concrete data of the repository's
"Combine finalizing segment with finalizing segment" test. -/
theorem updateOutputBuffer_combine_into_finalizing_witness :
    (BranchOutputState.mk
        (some ⟨SegmentState.finalizing, true, 100, 1, 90, 110, 0, 0,
               ⟨30, 5, 20, 2, 3, 4, 10, 1, 2⟩, 7⟩) []).finalizingSegment =
      some ⟨SegmentState.finalizing, true, 100, 1, 90, 110, 0, 0,
            ⟨30, 5, 20, 2, 3, 4, 10, 1, 2⟩, 7⟩ ∧
    (⟨SegmentState.finalizing, false, 200, 100, 190, 210, 0, 0,
        ⟨50, 3, 40, 5, 6, 7, 20, 3, 2⟩, 10⟩ : Segment).state = SegmentState.finalizing ∧
    (UpdateOutputBuffer
        (BranchOutputState.mk
          (some ⟨SegmentState.finalizing, true, 100, 1, 90, 110, 0, 0,
                 ⟨30, 5, 20, 2, 3, 4, 10, 1, 2⟩, 7⟩) [])
        [⟨SegmentState.finalizing, false, 200, 100, 190, 210, 0, 0,
            ⟨50, 3, 40, 5, 6, 7, 20, 3, 2⟩, 10⟩] =
      some ⟨some (combineSegment
              ⟨SegmentState.finalizing, true, 100, 1, 90, 110, 0, 0,
               ⟨30, 5, 20, 2, 3, 4, 10, 1, 2⟩, 7⟩
              ⟨SegmentState.finalizing, false, 200, 100, 190, 210, 0, 0,
               ⟨50, 3, 40, 5, 6, 7, 20, 3, 2⟩, 10⟩), []⟩) :=
  ⟨rfl, rfl,
   (updateOutputBuffer_combine_into_finalizing _ _ _ rfl rfl).1⟩

/-- C3: with no existing FINALIZING segment, every evicted segment except the
last is appended to the FINALIZED list in order, and the last becomes the new
FINALIZING segment completely unmodified. -/
theorem updateOutputBuffer_no_prior_state
    (st : BranchOutputState) (e0 lastSeg : Segment) (rest : List Segment)
    (hfin : st.finalizingSegment = none)
    (hlast : (e0 :: rest).getLast? = some lastSeg) :
    UpdateOutputBuffer st (e0 :: rest) =
      some ⟨some lastSeg, st.finalizedSegments ++ (e0 :: rest).dropLast⟩ := by
  simp only [UpdateOutputBuffer, hfin, hlast]

/-- Witness for C3, instantiated at the concrete data of the repository's
"No existing finalizing segment" test. -/
theorem updateOutputBuffer_no_prior_state_witness :
    (BranchOutputState.mk none []).finalizingSegment = none ∧
    ([(⟨SegmentState.finalized, false, 1, 0, 0, 0, 10, 0,
         ⟨10, 0, 10, 0, 0, 0, 10, 0, 0⟩, 0⟩ : Segment),
       ⟨SegmentState.finalizing, false, 11, 0, 0, 0, 30, 0,
         ⟨20, 0, 20, 0, 0, 0, 20, 0, 0⟩, 0⟩]).getLast? =
      some ⟨SegmentState.finalizing, false, 11, 0, 0, 0, 30, 0,
            ⟨20, 0, 20, 0, 0, 0, 20, 0, 0⟩, 0⟩ ∧
    (UpdateOutputBuffer (BranchOutputState.mk none [])
        [⟨SegmentState.finalized, false, 1, 0, 0, 0, 10, 0,
           ⟨10, 0, 10, 0, 0, 0, 10, 0, 0⟩, 0⟩,
         ⟨SegmentState.finalizing, false, 11, 0, 0, 0, 30, 0,
           ⟨20, 0, 20, 0, 0, 0, 20, 0, 0⟩, 0⟩] =
      some ⟨some ⟨SegmentState.finalizing, false, 11, 0, 0, 0, 30, 0,
                  ⟨20, 0, 20, 0, 0, 0, 20, 0, 0⟩, 0⟩,
            [] ++ ([(⟨SegmentState.finalized, false, 1, 0, 0, 0, 10, 0,
                      ⟨10, 0, 10, 0, 0, 0, 10, 0, 0⟩, 0⟩ : Segment),
                    ⟨SegmentState.finalizing, false, 11, 0, 0, 0, 30, 0,
                      ⟨20, 0, 20, 0, 0, 0, 20, 0, 0⟩, 0⟩]).dropLast⟩) :=
  ⟨rfl, rfl, updateOutputBuffer_no_prior_state _ _ _ _ rfl rfl⟩

/-- C4: if a FINALIZING segment exists but no evicted segment has state
FINALIZING, the merge raises the fatal, non-recoverable error (the panic of
the original code, modelled as `none`) instead of returning normally. -/
theorem updateOutputBuffer_fatal_without_finalizing
    (st : BranchOutputState) (fin : Segment) (evictedSegments : List Segment)
    (hfin : st.finalizingSegment = some fin)
    (hnofz : ∀ s ∈ evictedSegments, s.state ≠ SegmentState.finalizing) :
    UpdateOutputBuffer st evictedSegments = none := by
  have hany : evictedSegments.any
      (fun s => decide (s.state = SegmentState.finalizing)) = false := by
    simp only [List.any_eq_false, decide_eq_true_eq]
    exact hnofz
  simp only [UpdateOutputBuffer, hfin, hany, Bool.false_eq_true, if_false]

/-- Witness for C4, instantiated at the concrete data of the repository's
"Should panic if no finalizing segment in evicted segments" test. -/
theorem updateOutputBuffer_fatal_without_finalizing_witness :
    (BranchOutputState.mk
        (some ⟨SegmentState.finalizing, true, 100, 1, 90, 110, 0, 0,
               ⟨30, 5, 20, 2, 3, 4, 10, 1, 2⟩, 7⟩) []).finalizingSegment =
      some ⟨SegmentState.finalizing, true, 100, 1, 90, 110, 0, 0,
            ⟨30, 5, 20, 2, 3, 4, 10, 1, 2⟩, 7⟩ ∧
    (∀ s ∈ [(⟨SegmentState.finalized, false, 200, 100, 190, 210, 400, 400,
               ⟨50, 3, 40, 5, 6, 7, 20, 3, 2⟩, 10⟩ : Segment)],
        s.state ≠ SegmentState.finalizing) ∧
    UpdateOutputBuffer
        (BranchOutputState.mk
          (some ⟨SegmentState.finalizing, true, 100, 1, 90, 110, 0, 0,
                 ⟨30, 5, 20, 2, 3, 4, 10, 1, 2⟩, 7⟩) [])
        [⟨SegmentState.finalized, false, 200, 100, 190, 210, 400, 400,
           ⟨50, 3, 40, 5, 6, 7, 20, 3, 2⟩, 10⟩] = none :=
  ⟨rfl, by decide,
   updateOutputBuffer_fatal_without_finalizing _ _ _ rfl (by decide)⟩

namespace pb

/-- `pb.PositionVerdict_Run` of the proto surface: one run of the read-side
projection. -/
structure PositionVerdictRun where
  expectedResultCount : Nat
  unexpectedResultCount : Nat
  isDuplicate : Bool
deriving DecidableEq, Repr, Inhabited

/-- `pb.PositionVerdict` of the proto surface. -/
structure ProtoPositionVerdict where
  commitPosition : Nat
  hour : Nat
  isExonerated : Bool
  runs : List PositionVerdictRun
deriving DecidableEq, Repr, Inhabited

/-- `pb.InputBuffer` of the proto surface: projected verdict list plus its
length. -/
structure ProtoInputBuffer where
  length : Nat
  verdicts : List ProtoPositionVerdict
deriving DecidableEq, Repr, Inhabited

end pb

/-- The read-side projection `toProtoBuffer` (rpc server source file): the
`Length` field is the verdict count; a simple-expected verdict is emitted
with one synthesized run of one expected result and the zero-value
`IsExonerated`; a non-simple verdict copies `IsExonerated` and every stored
run verbatim.  The Go append loop over `history.Verdicts` is rendered as a
map. -/
def toProtoBuffer (history : History) : pb.ProtoInputBuffer where
  length := history.verdicts.length
  verdicts := history.verdicts.map (fun verdict =>
    if verdict.isSimpleExpected then
      { commitPosition := verdict.commitPosition
        hour := verdict.hour
        isExonerated := false
        runs := [{ expectedResultCount := 1
                   unexpectedResultCount := 0
                   isDuplicate := false }] }
    else
      { commitPosition := verdict.commitPosition
        hour := verdict.hour
        isExonerated := verdict.details.isExonerated
        runs := verdict.details.runs.map (fun r =>
          ⟨r.expectedResultCount, r.unexpectedResultCount, r.isDuplicate⟩) })

/-- C10: the projected buffer's `length` equals the tier's verdict count; a
simple-expected verdict projects to exactly one synthesized run with one
expected result, no unexpected results, no duplicate flag, and
`isExonerated = false`; a non-simple verdict projects its exoneration flag
and each stored run's counts and duplicate flag verbatim, keeping commit
position and hour. -/
theorem toProtoBuffer_spec (history : History) (i : Nat)
    (hi : i < history.verdicts.length) :
    (toProtoBuffer history).length = history.verdicts.length ∧
    (toProtoBuffer history).verdicts.length = history.verdicts.length ∧
    ((history.verdicts.getD i default).isSimpleExpected = true →
      (toProtoBuffer history).verdicts.getD i default =
        { commitPosition := (history.verdicts.getD i default).commitPosition
          hour := (history.verdicts.getD i default).hour
          isExonerated := false
          runs := [⟨1, 0, false⟩] }) ∧
    ((history.verdicts.getD i default).isSimpleExpected = false →
      (toProtoBuffer history).verdicts.getD i default =
        { commitPosition := (history.verdicts.getD i default).commitPosition
          hour := (history.verdicts.getD i default).hour
          isExonerated := (history.verdicts.getD i default).details.isExonerated
          runs := (history.verdicts.getD i default).details.runs.map (fun r =>
            ⟨r.expectedResultCount, r.unexpectedResultCount, r.isDuplicate⟩) }) := by
  have hlen : (toProtoBuffer history).verdicts.length = history.verdicts.length := by
    simp [toProtoBuffer]
  have hget : (toProtoBuffer history).verdicts.getD i default =
      if (history.verdicts.getD i default).isSimpleExpected then
        ({ commitPosition := (history.verdicts.getD i default).commitPosition
           hour := (history.verdicts.getD i default).hour
           isExonerated := false
           runs := [⟨1, 0, false⟩] } : pb.ProtoPositionVerdict)
      else
        { commitPosition := (history.verdicts.getD i default).commitPosition
          hour := (history.verdicts.getD i default).hour
          isExonerated := (history.verdicts.getD i default).details.isExonerated
          runs := (history.verdicts.getD i default).details.runs.map (fun r =>
            ⟨r.expectedResultCount, r.unexpectedResultCount, r.isDuplicate⟩) } := by
    rw [List.getD_eq_getElem _ _ hi, List.getD_eq_getElem _ _ (hlen ▸ hi)]
    simp [toProtoBuffer]
  refine ⟨rfl, hlen, ?_, ?_⟩ <;> intro hs
  · rw [hget, if_pos (by rw [hs])]
  · rw [hget, if_neg (by rw [hs]; simp)]

/-- Witness for C10: a two-verdict history (one simple-expected, one with
stored details), projected at index 0. -/
theorem toProtoBuffer_spec_witness :
    (0 < (History.mk
        [⟨1345, 1000, true, ⟨false, []⟩⟩,
         ⟨1355, 1005, false, ⟨true, [⟨1, 2, false⟩, ⟨2, 3, true⟩]⟩⟩]).verdicts.length) ∧
    ((toProtoBuffer (History.mk
        [⟨1345, 1000, true, ⟨false, []⟩⟩,
         ⟨1355, 1005, false, ⟨true, [⟨1, 2, false⟩, ⟨2, 3, true⟩]⟩⟩])).length = 2 ∧
     (toProtoBuffer (History.mk
        [⟨1345, 1000, true, ⟨false, []⟩⟩,
         ⟨1355, 1005, false, ⟨true, [⟨1, 2, false⟩, ⟨2, 3, true⟩]⟩⟩])).verdicts.getD 0 default =
       { commitPosition := 1345, hour := 1000, isExonerated := false,
         runs := [⟨1, 0, false⟩] }) := by
  refine ⟨by decide, ?_, ?_⟩
  · exact (toProtoBuffer_spec _ 0 (by decide)).1
  · exact (toProtoBuffer_spec _ 0 (by decide)).2.2.1 rfl

/-- The comparison the input buffer keeps its histories ordered by, as the
repository's tests pin it: by commit position first, then by hour (the
result's time), so verdicts at the same commit position appear oldest result
first. -/
def verdictLE (a b : PositionVerdict) : Prop :=
  a.commitPosition < b.commitPosition ∨
    (a.commitPosition = b.commitPosition ∧ a.hour ≤ b.hour)

instance (a b : PositionVerdict) : Decidable (verdictLE a b) := by
  unfold verdictLE; infer_instance

theorem verdictLE_trans {a b c : PositionVerdict}
    (h1 : verdictLE a b) (h2 : verdictLE b c) : verdictLE a c := by
  unfold verdictLE at *
  rcases h1 with h1 | ⟨h1, h1'⟩ <;> rcases h2 with h2 | ⟨h2, h2'⟩
  · exact Or.inl (lt_trans h1 h2)
  · exact Or.inl (h2 ▸ h1)
  · exact Or.inl (h1 ▸ h2)
  · exact Or.inr ⟨h1.trans h2, le_trans h1' h2'⟩

theorem verdictLE_of_not {a b : PositionVerdict} (h : ¬verdictLE a b) :
    verdictLE b a := by
  unfold verdictLE at *
  push_neg at h
  rcases Nat.lt_or_ge b.commitPosition a.commitPosition with hlt | hge
  · exact Or.inl hlt
  · have heq : a.commitPosition = b.commitPosition := Nat.le_antisymm hge h.1
    exact Or.inr ⟨heq.symm, Nat.le_of_lt (h.2 heq)⟩

theorem verdictLE_pos_le {a b : PositionVerdict} (h : verdictLE a b) :
    a.commitPosition ≤ b.commitPosition := by
  rcases h with h | ⟨h, _⟩
  · exact Nat.le_of_lt h
  · exact Nat.le_of_eq h

theorem pos_le_of_not_verdictLE {a b : PositionVerdict} (h : ¬verdictLE a b) :
    b.commitPosition ≤ a.commitPosition :=
  verdictLE_pos_le (verdictLE_of_not h)

/-- Modelled from the spec: the ordered insert used by `InsertVerdict`
(file `input_buffer.go`, absent from the sources).  The verdict is inserted
at the position that preserves the ordering invariant: non-decreasing by
commit position with ties ordered oldest result (hour) first, placed after
every verdict not later than it, so exact ties keep insertion order. -/
def insertOrdered (v : PositionVerdict) : List PositionVerdict → List PositionVerdict
  | [] => [v]
  | a :: t =>
    if verdictLE a v then a :: insertOrdered v t
    else v :: a :: t

/-- Modelled from the spec: the standard two-pointer stable merge of the two
already-sorted tiers used by `Compact` (file `input_buffer.go`, absent from
the sources).  On ties the cold (older) side is taken first. -/
def mergeVerdicts : List PositionVerdict → List PositionVerdict → List PositionVerdict
  | [], hot => hot
  | cold, [] => cold
  | a :: cold, b :: hot =>
    if verdictLE a b then a :: mergeVerdicts cold (b :: hot)
    else b :: mergeVerdicts (a :: cold) hot
termination_by cold hot => cold.length + hot.length

/-- The two-tier bounded input buffer (`inputbuffer.Buffer`). -/
structure Buffer where
  hotBufferCapacity : Nat
  hotBuffer : History
  coldBufferCapacity : Nat
  coldBuffer : History
  isColdBufferDirty : Bool
deriving DecidableEq, Repr, Inhabited

/-- Modelled from the spec: `Compact` (file `input_buffer.go`, absent from
the sources): replace the cold tier with the stable merge of cold and hot,
clear the hot tier, and set the dirty flag. -/
def Buffer.compact (b : Buffer) : Buffer :=
  { b with
    coldBuffer := ⟨mergeVerdicts b.coldBuffer.verdicts b.hotBuffer.verdicts⟩
    hotBuffer := ⟨[]⟩
    isColdBufferDirty := true }

/-- Modelled from the spec: `InsertVerdict` (file `input_buffer.go`, absent
from the sources): ordered insert into the hot tier; if the hot tier's
verdict count reaches its capacity immediately after the insert, trigger
compaction. -/
def Buffer.insertVerdict (b : Buffer) (v : PositionVerdict) : Buffer :=
  let hot := insertOrdered v b.hotBuffer.verdicts
  let b' := { b with hotBuffer := ⟨hot⟩ }
  if b.hotBufferCapacity ≤ hot.length then b'.compact else b'

/-- A freshly created, empty input buffer with the given capacities. -/
def emptyBuffer (hotCap coldCap : Nat) : Buffer :=
  ⟨hotCap, ⟨[]⟩, coldCap, ⟨[]⟩, false⟩

/-- Folding a whole sequence of verdicts into an initially empty buffer. -/
def insertAll (hotCap coldCap : Nat) (vs : List PositionVerdict) : Buffer :=
  vs.foldl Buffer.insertVerdict (emptyBuffer hotCap coldCap)

/-- Sorted in non-decreasing order of commit position. -/
def sortedByPosition (l : List PositionVerdict) : Prop :=
  l.Pairwise (fun a b => a.commitPosition ≤ b.commitPosition)

instance : DecidablePred sortedByPosition := fun l =>
  List.instDecidablePairwise l

/-- The stable insertion sort of a verdict sequence: the reference order in
which the buffer keeps a given insertion sequence (same commit position
ordered oldest result hour first, identical position-and-hour ties in
insertion order, oldest first). -/
def orderedHistoryOf (vs : List PositionVerdict) : List PositionVerdict :=
  vs.foldl (fun l v => insertOrdered v l) []

theorem mergeVerdicts_nil_right (cold : List PositionVerdict) :
    mergeVerdicts cold [] = cold := by
  cases cold <;> simp [mergeVerdicts]

theorem mergeVerdicts_singleton (v : PositionVerdict) :
    ∀ cold : List PositionVerdict, mergeVerdicts cold [v] = insertOrdered v cold := by
  intro cold
  induction cold with
  | nil => simp [mergeVerdicts, insertOrdered]
  | cons a t ih =>
    simp only [mergeVerdicts, insertOrdered, mergeVerdicts_nil_right]
    by_cases h : verdictLE a v <;> simp [h, ih]

theorem mergeVerdicts_insertOrdered (v : PositionVerdict) :
    ∀ cold hot : List PositionVerdict,
      mergeVerdicts cold (insertOrdered v hot) =
        insertOrdered v (mergeVerdicts cold hot) := by
  intro cold
  induction cold with
  | nil => intro hot; simp [mergeVerdicts]
  | cons a cold ih =>
    intro hot
    induction hot with
    | nil =>
      simpa [mergeVerdicts_nil_right] using mergeVerdicts_singleton v (a :: cold)
    | cons b hot ihh =>
      by_cases hbv : verdictLE b v
      · rw [show insertOrdered v (b :: hot) = b :: insertOrdered v hot from by
          simp [insertOrdered, hbv]]
        by_cases hab : verdictLE a b
        · rw [show mergeVerdicts (a :: cold) (b :: insertOrdered v hot) =
              a :: mergeVerdicts cold (b :: insertOrdered v hot) from by
            simp [mergeVerdicts, hab]]
          rw [show (b :: insertOrdered v hot) = insertOrdered v (b :: hot) from by
            simp [insertOrdered, hbv]]
          rw [ih (b :: hot)]
          rw [show mergeVerdicts (a :: cold) (b :: hot) =
              a :: mergeVerdicts cold (b :: hot) from by simp [mergeVerdicts, hab]]
          have hav : verdictLE a v := verdictLE_trans hab hbv
          simp [insertOrdered, hav]
        · rw [show mergeVerdicts (a :: cold) (b :: insertOrdered v hot) =
              b :: mergeVerdicts (a :: cold) (insertOrdered v hot) from by
            simp [mergeVerdicts, hab]]
          rw [ihh]
          rw [show mergeVerdicts (a :: cold) (b :: hot) =
              b :: mergeVerdicts (a :: cold) hot from by simp [mergeVerdicts, hab]]
          simp [insertOrdered, hbv]
      · rw [show insertOrdered v (b :: hot) = v :: b :: hot from by
          simp [insertOrdered, hbv]]
        by_cases hav : verdictLE a v
        · rw [show mergeVerdicts (a :: cold) (v :: b :: hot) =
              a :: mergeVerdicts cold (v :: b :: hot) from by simp [mergeVerdicts, hav]]
          rw [show (v :: b :: hot : List PositionVerdict) =
              insertOrdered v (b :: hot) from by simp [insertOrdered, hbv]]
          rw [ih (b :: hot)]
          have hab : verdictLE a b :=
            verdictLE_trans hav (verdictLE_of_not hbv)
          rw [show mergeVerdicts (a :: cold) (b :: hot) =
              a :: mergeVerdicts cold (b :: hot) from by simp [mergeVerdicts, hab]]
          simp [insertOrdered, hav]
        · rw [show mergeVerdicts (a :: cold) (v :: b :: hot) =
              v :: mergeVerdicts (a :: cold) (b :: hot) from by
            simp [mergeVerdicts, hav]]
          by_cases hab : verdictLE a b
          · rw [show mergeVerdicts (a :: cold) (b :: hot) =
                a :: mergeVerdicts cold (b :: hot) from by simp [mergeVerdicts, hab]]
            simp [insertOrdered, hav]
          · rw [show mergeVerdicts (a :: cold) (b :: hot) =
                b :: mergeVerdicts (a :: cold) hot from by simp [mergeVerdicts, hab]]
            simp [insertOrdered, hbv]

theorem mem_insertOrdered {x v : PositionVerdict} :
    ∀ {l : List PositionVerdict}, x ∈ insertOrdered v l ↔ x = v ∨ x ∈ l := by
  intro l
  induction l with
  | nil => simp [insertOrdered]
  | cons a t ih =>
    by_cases h : verdictLE a v
    · simp only [insertOrdered, if_pos h, List.mem_cons, ih]
      tauto
    · simp only [insertOrdered, if_neg h, List.mem_cons]

theorem insertOrdered_sorted {v : PositionVerdict} :
    ∀ {l : List PositionVerdict}, sortedByPosition l →
      sortedByPosition (insertOrdered v l) := by
  intro l
  induction l with
  | nil => intro _; simp [insertOrdered, sortedByPosition]
  | cons a t ih =>
    intro hs
    rw [sortedByPosition, List.pairwise_cons] at hs
    by_cases h : verdictLE a v
    · rw [insertOrdered, if_pos h, sortedByPosition, List.pairwise_cons]
      refine ⟨?_, ih hs.2⟩
      intro x hx
      rcases mem_insertOrdered.mp hx with hxv | hxt
      · exact hxv ▸ verdictLE_pos_le h
      · exact hs.1 x hxt
    · rw [insertOrdered, if_neg h, sortedByPosition, List.pairwise_cons]
      refine ⟨?_, List.pairwise_cons.mpr hs⟩
      intro x hx
      have hva : v.commitPosition ≤ a.commitPosition := pos_le_of_not_verdictLE h
      rcases List.mem_cons.mp hx with hxa | hxt
      · exact hxa ▸ hva
      · exact le_trans hva (hs.1 x hxt)

theorem mergeVerdicts_perm :
    ∀ cold hot : List PositionVerdict,
      List.Perm (mergeVerdicts cold hot) (cold ++ hot) := by
  intro cold
  induction cold with
  | nil => intro hot; simp [mergeVerdicts]
  | cons a cold ih =>
    intro hot
    induction hot with
    | nil => simp [mergeVerdicts_nil_right]
    | cons b hot ihh =>
      by_cases hab : verdictLE a b
      · rw [show mergeVerdicts (a :: cold) (b :: hot) =
            a :: mergeVerdicts cold (b :: hot) from by simp [mergeVerdicts, hab]]
        exact (ih (b :: hot)).cons a
      · rw [show mergeVerdicts (a :: cold) (b :: hot) =
            b :: mergeVerdicts (a :: cold) hot from by simp [mergeVerdicts, hab]]
        exact (ihh.cons b).trans (List.perm_middle).symm

theorem mergeVerdicts_sorted :
    ∀ cold hot : List PositionVerdict, sortedByPosition cold → sortedByPosition hot →
      sortedByPosition (mergeVerdicts cold hot) := by
  intro cold
  induction cold with
  | nil => intro hot _ hh; simpa [mergeVerdicts] using hh
  | cons a cold ih =>
    intro hot hc hh
    induction hot with
    | nil => simpa [mergeVerdicts_nil_right] using hc
    | cons b hot ihh =>
      rw [sortedByPosition, List.pairwise_cons] at hc hh
      by_cases hab : verdictLE a b
      · rw [show mergeVerdicts (a :: cold) (b :: hot) =
            a :: mergeVerdicts cold (b :: hot) from by simp [mergeVerdicts, hab]]
        rw [sortedByPosition, List.pairwise_cons]
        refine ⟨?_, ih (b :: hot) hc.2 (List.pairwise_cons.mpr hh)⟩
        intro x hx
        have hx' : x ∈ cold ++ b :: hot := (mergeVerdicts_perm cold (b :: hot)).mem_iff.mp hx
        rcases List.mem_append.mp hx' with hxc | hxbh
        · exact hc.1 x hxc
        · rcases List.mem_cons.mp hxbh with hxb | hxh
          · exact hxb ▸ verdictLE_pos_le hab
          · exact le_trans (verdictLE_pos_le hab) (hh.1 x hxh)
      · rw [show mergeVerdicts (a :: cold) (b :: hot) =
            b :: mergeVerdicts (a :: cold) hot from by simp [mergeVerdicts, hab]]
        rw [sortedByPosition, List.pairwise_cons]
        have hba : b.commitPosition ≤ a.commitPosition := pos_le_of_not_verdictLE hab
        refine ⟨?_, ihh hh.2⟩
        intro x hx
        have hx' : x ∈ (a :: cold) ++ hot :=
          (mergeVerdicts_perm (a :: cold) hot).mem_iff.mp hx
        rcases List.mem_append.mp hx' with hxac | hxh
        · rcases List.mem_cons.mp hxac with hxa | hxc
          · exact hxa ▸ hba
          · exact le_trans hba (hc.1 x hxc)
        · exact hh.1 x hxh

theorem insertOrdered_length (v : PositionVerdict) :
    ∀ l : List PositionVerdict, (insertOrdered v l).length = l.length + 1 := by
  intro l
  induction l with
  | nil => simp [insertOrdered]
  | cons a t ih =>
    by_cases h : verdictLE a v <;>
      simp [insertOrdered, h, ih]

theorem foldl_insertOrdered_append (l : List PositionVerdict) (v : PositionVerdict) :
    orderedHistoryOf (l ++ [v]) = insertOrdered v (orderedHistoryOf l) := by
  simp [orderedHistoryOf, List.foldl_append]

theorem insertVerdict_invariant (b : Buffer) (v : PositionVerdict)
    (l : List PositionVerdict)
    (hh : sortedByPosition b.hotBuffer.verdicts)
    (hc : sortedByPosition b.coldBuffer.verdicts)
    (hm : mergeVerdicts b.coldBuffer.verdicts b.hotBuffer.verdicts =
      orderedHistoryOf l) :
    sortedByPosition (b.insertVerdict v).hotBuffer.verdicts ∧
    sortedByPosition (b.insertVerdict v).coldBuffer.verdicts ∧
    mergeVerdicts (b.insertVerdict v).coldBuffer.verdicts
        (b.insertVerdict v).hotBuffer.verdicts = orderedHistoryOf (l ++ [v]) := by
  rw [foldl_insertOrdered_append]
  by_cases htrig : b.hotBufferCapacity ≤ (insertOrdered v b.hotBuffer.verdicts).length
  · have hb : b.insertVerdict v =
        ⟨b.hotBufferCapacity, ⟨[]⟩, b.coldBufferCapacity,
         ⟨mergeVerdicts b.coldBuffer.verdicts (insertOrdered v b.hotBuffer.verdicts)⟩,
         true⟩ := by
      simp [Buffer.insertVerdict, Buffer.compact, htrig]
    rw [hb]
    refine ⟨by simp [sortedByPosition], ?_, ?_⟩
    · exact mergeVerdicts_sorted _ _ hc (insertOrdered_sorted hh)
    · simp only [mergeVerdicts_nil_right]
      rw [mergeVerdicts_insertOrdered, hm]
  · have hb : b.insertVerdict v =
        { b with hotBuffer := ⟨insertOrdered v b.hotBuffer.verdicts⟩ } := by
      simp [Buffer.insertVerdict, htrig]
    rw [hb]
    refine ⟨insertOrdered_sorted hh, hc, ?_⟩
    rw [mergeVerdicts_insertOrdered, hm]

/-- C5: for every sequence of inserts into an initially empty buffer (any
capacities), the hot and cold tiers are each sorted in non-decreasing order
of commit position — including immediately after any compaction, since every
reachable state is of this form — and the buffer's combined content (the
stable merge of cold before hot) is exactly the stable insertion sort of the
inserted sequence, so verdicts sharing a commit position appear in
insertion/result order, oldest first: ordered by result hour, and kept in
insertion order when position and hour coincide. -/
theorem insertAll_ordering (hotCap coldCap : Nat) (vs : List PositionVerdict) :
    sortedByPosition (insertAll hotCap coldCap vs).hotBuffer.verdicts ∧
    sortedByPosition (insertAll hotCap coldCap vs).coldBuffer.verdicts ∧
    mergeVerdicts (insertAll hotCap coldCap vs).coldBuffer.verdicts
        (insertAll hotCap coldCap vs).hotBuffer.verdicts = orderedHistoryOf vs := by
  induction vs using List.reverseRecOn with
  | nil =>
    refine ⟨?_, ?_, ?_⟩ <;>
      simp [insertAll, emptyBuffer, sortedByPosition, orderedHistoryOf, mergeVerdicts]
  | append_singleton l v ih =>
    have hfold : insertAll hotCap coldCap (l ++ [v]) =
        (insertAll hotCap coldCap l).insertVerdict v := by
      simp [insertAll, List.foldl_append]
    rw [hfold]
    exact insertVerdict_invariant _ v l ih.1 ih.2.1 ih.2.2

/-- C6: for a buffer whose two tiers are each sorted by commit position,
`compact` replaces the cold tier with the stable two-pointer merge of cold
and hot, clears the hot tier, and neither drops nor duplicates an entry (the
new cold tier is a permutation of the concatenation of the old tiers and is
still sorted), regardless of the cold tier's nominal capacity. -/
theorem compact_spec (b : Buffer)
    (hh : sortedByPosition b.hotBuffer.verdicts)
    (hc : sortedByPosition b.coldBuffer.verdicts) :
    b.compact.hotBuffer.verdicts = [] ∧
    b.compact.coldBuffer.verdicts =
      mergeVerdicts b.coldBuffer.verdicts b.hotBuffer.verdicts ∧
    List.Perm b.compact.coldBuffer.verdicts
      (b.coldBuffer.verdicts ++ b.hotBuffer.verdicts) ∧
    sortedByPosition b.compact.coldBuffer.verdicts ∧
    b.compact.coldBuffer.verdicts.length =
      b.coldBuffer.verdicts.length + b.hotBuffer.verdicts.length := by
  refine ⟨rfl, rfl, mergeVerdicts_perm _ _, mergeVerdicts_sorted _ _ hc hh, ?_⟩
  simpa using (mergeVerdicts_perm b.coldBuffer.verdicts b.hotBuffer.verdicts).length_eq

/-- Witness for C6, instantiated at the repository's "Cold buffer should
keep old verdicts after compaction" test: hot = positions 7, 9 (capacity 2),
cold = positions 2, 4, 6, 8, 10 (capacity 5); the merged cold tier holds all
seven entries. -/
theorem compact_spec_witness :
    sortedByPosition (Buffer.mk 2
        ⟨[⟨7, 1, true, ⟨false, []⟩⟩, ⟨9, 1, true, ⟨false, []⟩⟩]⟩ 5
        ⟨[⟨2, 1, true, ⟨false, []⟩⟩, ⟨4, 1, true, ⟨false, []⟩⟩,
          ⟨6, 1, true, ⟨false, []⟩⟩, ⟨8, 1, true, ⟨false, []⟩⟩,
          ⟨10, 1, true, ⟨false, []⟩⟩]⟩ false).hotBuffer.verdicts ∧
    sortedByPosition (Buffer.mk 2
        ⟨[⟨7, 1, true, ⟨false, []⟩⟩, ⟨9, 1, true, ⟨false, []⟩⟩]⟩ 5
        ⟨[⟨2, 1, true, ⟨false, []⟩⟩, ⟨4, 1, true, ⟨false, []⟩⟩,
          ⟨6, 1, true, ⟨false, []⟩⟩, ⟨8, 1, true, ⟨false, []⟩⟩,
          ⟨10, 1, true, ⟨false, []⟩⟩]⟩ false).coldBuffer.verdicts ∧
    ((Buffer.mk 2
        ⟨[⟨7, 1, true, ⟨false, []⟩⟩, ⟨9, 1, true, ⟨false, []⟩⟩]⟩ 5
        ⟨[⟨2, 1, true, ⟨false, []⟩⟩, ⟨4, 1, true, ⟨false, []⟩⟩,
          ⟨6, 1, true, ⟨false, []⟩⟩, ⟨8, 1, true, ⟨false, []⟩⟩,
          ⟨10, 1, true, ⟨false, []⟩⟩]⟩ false).compact.hotBuffer.verdicts = [] ∧
     (Buffer.mk 2
        ⟨[⟨7, 1, true, ⟨false, []⟩⟩, ⟨9, 1, true, ⟨false, []⟩⟩]⟩ 5
        ⟨[⟨2, 1, true, ⟨false, []⟩⟩, ⟨4, 1, true, ⟨false, []⟩⟩,
          ⟨6, 1, true, ⟨false, []⟩⟩, ⟨8, 1, true, ⟨false, []⟩⟩,
          ⟨10, 1, true, ⟨false, []⟩⟩]⟩ false).compact.coldBuffer.verdicts.length = 5 + 2) := by
  refine ⟨by decide, by decide, ?_, ?_⟩
  · exact (compact_spec _ (by decide) (by decide)).1
  · exact (compact_spec _ (by decide) (by decide)).2.2.2.2

/-- C7: an insert triggers compaction exactly when the hot tier's verdict
count reaches its capacity immediately after the insert: below capacity the
cold tier and the (clear) dirty flag are untouched and the hot tier is just
the ordered insert; at capacity the hot tier empties, the cold tier becomes
the ordered merge of both tiers, and the dirty flag becomes true. -/
theorem insertVerdict_trigger (b : Buffer) (v : PositionVerdict)
    (hdirty : b.isColdBufferDirty = false) :
    ((insertOrdered v b.hotBuffer.verdicts).length < b.hotBufferCapacity →
      ((b.insertVerdict v).hotBuffer.verdicts = insertOrdered v b.hotBuffer.verdicts ∧
       (b.insertVerdict v).coldBuffer = b.coldBuffer ∧
       (b.insertVerdict v).isColdBufferDirty = false)) ∧
    (b.hotBufferCapacity ≤ (insertOrdered v b.hotBuffer.verdicts).length →
      ((b.insertVerdict v).hotBuffer.verdicts = [] ∧
       (b.insertVerdict v).coldBuffer.verdicts =
         mergeVerdicts b.coldBuffer.verdicts (insertOrdered v b.hotBuffer.verdicts) ∧
       (b.insertVerdict v).isColdBufferDirty = true)) := by
  constructor
  · intro hlt
    have hb : b.insertVerdict v =
        { b with hotBuffer := ⟨insertOrdered v b.hotBuffer.verdicts⟩ } := by
      simp [Buffer.insertVerdict, Nat.not_le_of_lt hlt]
    rw [hb]
    exact ⟨rfl, rfl, hdirty⟩
  · intro hge
    have hb : b.insertVerdict v =
        ⟨b.hotBufferCapacity, ⟨[]⟩, b.coldBufferCapacity,
         ⟨mergeVerdicts b.coldBuffer.verdicts (insertOrdered v b.hotBuffer.verdicts)⟩,
         true⟩ := by
      simp [Buffer.insertVerdict, Buffer.compact, hge]
    rw [hb]
    exact ⟨rfl, rfl, rfl⟩

/-- Witness for C7: a clean buffer with hot capacity 2 holding one verdict;
the next insert reaches capacity and both branches of the statement apply
concretely. -/
theorem insertVerdict_trigger_witness :
    (Buffer.mk 2 ⟨[⟨1, 4, true, ⟨false, []⟩⟩]⟩ 100 ⟨[]⟩ false).isColdBufferDirty
      = false ∧
    (((insertOrdered ⟨2, 2, true, ⟨false, []⟩⟩
        (Buffer.mk 2 ⟨[⟨1, 4, true, ⟨false, []⟩⟩]⟩ 100 ⟨[]⟩
          false).hotBuffer.verdicts).length <
      (Buffer.mk 2 ⟨[⟨1, 4, true, ⟨false, []⟩⟩]⟩ 100 ⟨[]⟩ false).hotBufferCapacity →
      (((Buffer.mk 2 ⟨[⟨1, 4, true, ⟨false, []⟩⟩]⟩ 100 ⟨[]⟩ false).insertVerdict
          ⟨2, 2, true, ⟨false, []⟩⟩).hotBuffer.verdicts =
        insertOrdered ⟨2, 2, true, ⟨false, []⟩⟩
          (Buffer.mk 2 ⟨[⟨1, 4, true, ⟨false, []⟩⟩]⟩ 100 ⟨[]⟩
            false).hotBuffer.verdicts ∧
       ((Buffer.mk 2 ⟨[⟨1, 4, true, ⟨false, []⟩⟩]⟩ 100 ⟨[]⟩ false).insertVerdict
          ⟨2, 2, true, ⟨false, []⟩⟩).coldBuffer =
        (Buffer.mk 2 ⟨[⟨1, 4, true, ⟨false, []⟩⟩]⟩ 100 ⟨[]⟩ false).coldBuffer ∧
       ((Buffer.mk 2 ⟨[⟨1, 4, true, ⟨false, []⟩⟩]⟩ 100 ⟨[]⟩ false).insertVerdict
          ⟨2, 2, true, ⟨false, []⟩⟩).isColdBufferDirty = false)) ∧
    ((Buffer.mk 2 ⟨[⟨1, 4, true, ⟨false, []⟩⟩]⟩ 100 ⟨[]⟩ false).hotBufferCapacity ≤
      (insertOrdered ⟨2, 2, true, ⟨false, []⟩⟩
        (Buffer.mk 2 ⟨[⟨1, 4, true, ⟨false, []⟩⟩]⟩ 100 ⟨[]⟩
          false).hotBuffer.verdicts).length →
      (((Buffer.mk 2 ⟨[⟨1, 4, true, ⟨false, []⟩⟩]⟩ 100 ⟨[]⟩ false).insertVerdict
          ⟨2, 2, true, ⟨false, []⟩⟩).hotBuffer.verdicts = [] ∧
       ((Buffer.mk 2 ⟨[⟨1, 4, true, ⟨false, []⟩⟩]⟩ 100 ⟨[]⟩ false).insertVerdict
          ⟨2, 2, true, ⟨false, []⟩⟩).coldBuffer.verdicts =
        mergeVerdicts
          (Buffer.mk 2 ⟨[⟨1, 4, true, ⟨false, []⟩⟩]⟩ 100 ⟨[]⟩
            false).coldBuffer.verdicts
          (insertOrdered ⟨2, 2, true, ⟨false, []⟩⟩
            (Buffer.mk 2 ⟨[⟨1, 4, true, ⟨false, []⟩⟩]⟩ 100 ⟨[]⟩
              false).hotBuffer.verdicts) ∧
       ((Buffer.mk 2 ⟨[⟨1, 4, true, ⟨false, []⟩⟩]⟩ 100 ⟨[]⟩ false).insertVerdict
          ⟨2, 2, true, ⟨false, []⟩⟩).isColdBufferDirty = true))) :=
  ⟨rfl, insertVerdict_trigger _ _ rfl⟩

/-- Boolean encoded as a numeric token. -/
def encodeBool (b : Bool) : Nat := if b then 1 else 0

/-- Boolean decoded from a numeric token. -/
def decodeBool (n : Nat) : Bool := n == 1

/-- Modelled from the spec: the serialized form of one run inside
`EncodeHistory` (file `history_serializer.go`, absent from the sources).
The exact byte layout is an internal implementation choice per spec
section 4.2; the encoding is modelled as a numeric token stream. -/
def encodeRun (r : Run) : List Nat :=
  [r.expectedResultCount, r.unexpectedResultCount, encodeBool r.isDuplicate]

/-- Serialized form of a run list, runs in order. -/
def encodeRunList : List Run → List Nat
  | [] => []
  | r :: t => encodeRun r ++ encodeRunList t

/-- Modelled from the spec: the serialized form of one verdict.  A
simple-expected verdict stores no details (the spec's optimization for the
common case); a non-simple verdict stores the exoneration flag, the run
count and the runs. -/
def encodeVerdict (v : PositionVerdict) : List Nat :=
  [v.commitPosition, v.hour, encodeBool v.isSimpleExpected] ++
    (if v.isSimpleExpected then []
     else encodeBool v.details.isExonerated ::
       v.details.runs.length :: encodeRunList v.details.runs)

/-- Serialized form of a verdict list, verdicts in order. -/
def encodeVerdictList : List PositionVerdict → List Nat
  | [] => []
  | v :: t => encodeVerdict v ++ encodeVerdictList t

/-- Modelled from the spec: `EncodeHistory` (file `history_serializer.go`,
absent from the sources): a version header, the verdict count, then the
verdicts in order. -/
def EncodeHistory (h : History) : List Nat :=
  1 :: h.verdicts.length :: encodeVerdictList h.verdicts

/-- Decoder for `count` runs; returns the runs and the remaining stream. -/
def decodeRunList : Nat → List Nat → Option (List Run × List Nat)
  | 0, s => some ([], s)
  | n + 1, e :: u :: d :: s =>
    match decodeRunList n s with
    | some (rs, rem) => some (⟨e, u, decodeBool d⟩ :: rs, rem)
    | none => none
  | _ + 1, _ => none

/-- Decoder for `count` verdicts; returns the verdicts and the remaining
stream. -/
def decodeVerdictList : Nat → List Nat → Option (List PositionVerdict × List Nat)
  | 0, s => some ([], s)
  | n + 1, p :: hr :: simple :: s =>
    if decodeBool simple then
      match decodeVerdictList n s with
      | some (vs, rem) => some (⟨p, hr, true, ⟨false, []⟩⟩ :: vs, rem)
      | none => none
    else
      match s with
      | exo :: nruns :: s' =>
        match decodeRunList nruns s' with
        | some (rs, rem) =>
          match decodeVerdictList n rem with
          | some (vs, rem') => some (⟨p, hr, false, ⟨decodeBool exo, rs⟩⟩ :: vs, rem')
          | none => none
        | none => none
      | _ => none
  | _ + 1, _ => none

/-- Modelled from the spec: `DecodeHistory` (file `history_serializer.go`,
absent from the sources): checks the version header, decodes the announced
number of verdicts and requires the stream to be fully consumed. -/
def DecodeHistory (s : List Nat) : Option History :=
  match s with
  | version :: count :: rest =>
    if version = 1 then
      match decodeVerdictList count rest with
      | some (vs, []) => some ⟨vs⟩
      | _ => none
    else none
  | _ => none

/-- The spec's data-model invariant (section 3): a simple-expected verdict
carries no details. -/
def WellFormedVerdict (v : PositionVerdict) : Prop :=
  v.isSimpleExpected = true → v.details = ⟨false, []⟩

instance (v : PositionVerdict) : Decidable (WellFormedVerdict v) := by
  unfold WellFormedVerdict; infer_instance

theorem decodeBool_encodeBool (b : Bool) : decodeBool (encodeBool b) = b := by
  cases b <;> rfl

theorem decodeRunList_encodeRunList (rs : List Run) :
    ∀ rest : List Nat,
      decodeRunList rs.length (encodeRunList rs ++ rest) = some (rs, rest) := by
  induction rs with
  | nil => intro rest; simp [encodeRunList, decodeRunList]
  | cons r t ih =>
    intro rest
    simp [encodeRunList, encodeRun, decodeRunList, List.append_assoc, ih,
      decodeBool_encodeBool]

theorem decodeVerdictList_encodeVerdictList (vs : List PositionVerdict)
    (hwf : ∀ v ∈ vs, WellFormedVerdict v) :
    ∀ rest : List Nat,
      decodeVerdictList vs.length (encodeVerdictList vs ++ rest) = some (vs, rest) := by
  induction vs with
  | nil => intro rest; simp [encodeVerdictList, decodeVerdictList]
  | cons v t ih =>
    intro rest
    have hv : WellFormedVerdict v := hwf v (List.mem_cons_self v t)
    have ht : ∀ x ∈ t, WellFormedVerdict x := fun x hx =>
      hwf x (List.mem_cons_of_mem v hx)
    obtain ⟨p, hr, simple, det⟩ := v
    cases simple with
    | true =>
      have hdet : det = ⟨false, []⟩ := hv rfl
      subst hdet
      simp [encodeVerdictList, encodeVerdict, encodeBool, decodeVerdictList,
        decodeBool, ih ht rest]
    | false =>
      simp only [encodeVerdictList, encodeVerdict, Bool.false_eq_true, if_false,
        List.cons_append, List.nil_append, List.length_cons, List.append_assoc,
        decodeVerdictList, encodeBool]
      simp only [decodeBool, Nat.zero_ne_one, beq_iff_eq, if_false,
        Bool.false_eq_true]
      simp only [List.append_eq, List.cons_append, List.nil_append,
        List.append_assoc]
      rw [decodeRunList_encodeRunList det.runs (encodeVerdictList t ++ rest)]
      obtain ⟨exo, runs⟩ := det
      cases exo <;> simp [ih ht rest]

/-- C8: decoding the encoding of any history (its verdicts satisfying the
data model's simple-implies-no-details invariant) succeeds and returns the
history unchanged in every field, whatever its length and its mix of simple
and non-simple verdicts. -/
theorem decodeHistory_encodeHistory (h : History)
    (hwf : ∀ v ∈ h.verdicts, WellFormedVerdict v) :
    DecodeHistory (EncodeHistory h) = some h := by
  have hd := decodeVerdictList_encodeVerdictList h.verdicts hwf []
  rw [List.append_nil] at hd
  simp [DecodeHistory, EncodeHistory, hd]

/-- Witness for C8, instantiated at the four-verdict history of the
repository's "Encode and decode should return the same result" test. -/
theorem decodeHistory_encodeHistory_witness :
    (∀ v ∈ (History.mk
        [⟨1345, 1000, true, ⟨false, []⟩⟩,
         ⟨1355, 1005, false, ⟨false, [⟨1, 2, false⟩, ⟨2, 3, true⟩]⟩⟩,
         ⟨1357, 1003, true, ⟨false, []⟩⟩,
         ⟨1357, 1005, false, ⟨true, [⟨0, 1, true⟩, ⟨0, 1, false⟩]⟩⟩]).verdicts,
      WellFormedVerdict v) ∧
    DecodeHistory (EncodeHistory (History.mk
        [⟨1345, 1000, true, ⟨false, []⟩⟩,
         ⟨1355, 1005, false, ⟨false, [⟨1, 2, false⟩, ⟨2, 3, true⟩]⟩⟩,
         ⟨1357, 1003, true, ⟨false, []⟩⟩,
         ⟨1357, 1005, false, ⟨true, [⟨0, 1, true⟩, ⟨0, 1, false⟩]⟩⟩])) =
      some (History.mk
        [⟨1345, 1000, true, ⟨false, []⟩⟩,
         ⟨1355, 1005, false, ⟨false, [⟨1, 2, false⟩, ⟨2, 3, true⟩]⟩⟩,
         ⟨1357, 1003, true, ⟨false, []⟩⟩,
         ⟨1357, 1005, false, ⟨true, [⟨0, 1, true⟩, ⟨0, 1, false⟩]⟩⟩]) :=
  ⟨by decide, decodeHistory_encodeHistory _ (by decide)⟩

/-- One raw test result of a bundle handed to the verdict constructor:
its run identity (none = the implicit run of results without an identity),
whether the result was expected, and whether it was skipped. -/
structure TestResult where
  runId : Option String
  expected : Bool
  skipped : Bool
deriving DecidableEq, Repr, Inhabited

/-- Whether a run identity is in the duplicate set (absent identities never
are). -/
def dupFlag (dups : List String) : Option String → Bool
  | some name => dups.contains name
  | none => false

/-- A fresh run created from its first counted result. -/
def newRun (e d : Bool) : Run :=
  ⟨if e then 1 else 0, if e then 0 else 1, d⟩

/-- Counting one more result into an existing run. -/
def addResultToRun (r : Run) (e : Bool) : Run :=
  if e then { r with expectedResultCount := r.expectedResultCount + 1 }
  else { r with unexpectedResultCount := r.unexpectedResultCount + 1 }

/-- Counting a result into the association list of runs: the first entry
with the result's run identity is bumped; an unseen identity is appended at
the end, which realizes the first-seen run order. -/
def bumpRun (key : Option String) (e d : Bool) :
    List (Option String × Run) → List (Option String × Run)
  | [] => [(key, newRun e d)]
  | (k, r) :: t =>
    if k = key then (k, addResultToRun r e) :: t
    else (k, r) :: bumpRun key e d t

/-- Modelled from the spec: the grouping step of `ToPositionVerdict` (file
`testvariantbranch.go`, absent from the sources): group the results by run
identity in first-seen order, count expected/unexpected results per run with
skipped results ignored entirely, and mark runs whose identity is in the
duplicate set. -/
def groupRuns (dups : List String) (results : List TestResult) :
    List (Option String × Run) :=
  results.foldl
    (fun acc tr =>
      if tr.skipped then acc
      else bumpRun tr.runId tr.expected (dupFlag dups tr.runId) acc) []

/-- Modelled from the spec: the verdict constructor `ToPositionVerdict`
(file `testvariantbranch.go`, absent from the sources).  If there is exactly
one run consisting of exactly one expected result, not marked duplicate, and
the verdict is not exonerated, the verdict is simple-expected with no
details; otherwise details carry the exoneration flag and the run list.
The run order follows the repository's test expectation rather than the
spec's "first-seen order" sentence: non-duplicate runs come first, then
duplicate runs, each group in first-seen order (a stable partition of the
grouped runs by the duplicate flag). -/
def ToPositionVerdict (results : List TestResult) (dups : List String)
    (exonerated : Bool) (pos hour : Nat) : PositionVerdict :=
  let grouped := (groupRuns dups results).map Prod.snd
  let runs := grouped.filter (fun r => !r.isDuplicate) ++
    grouped.filter (fun r => r.isDuplicate)
  let simple : Bool :=
    match grouped with
    | [r] => (r.expectedResultCount == 1) && (r.unexpectedResultCount == 0) &&
        !r.isDuplicate && !exonerated
    | _ => false
  if simple then ⟨pos, hour, true, ⟨false, []⟩⟩
  else ⟨pos, hour, false, ⟨exonerated, runs⟩⟩

/-- First occurrences of a list's elements, in order. -/
def dedupFirst {α : Type} [DecidableEq α] : List α → List α
  | [] => []
  | a :: t => a :: dedupFirst (t.filter (fun x => decide (x ≠ a)))
termination_by l => l.length
decreasing_by
  simp only [List.length_cons]
  exact Nat.lt_succ_of_le (List.length_filter_le _ _)

/-- The run identities of the non-skipped results, in result order. -/
def keysOf (results : List TestResult) : List (Option String) :=
  (results.filter (fun r => !r.skipped)).map TestResult.runId

/-- Declarative tally: the number of non-skipped expected results carrying
the given run identity. -/
def tallyExpected (results : List TestResult) (k : Option String) : Nat :=
  (results.filter (fun r => !r.skipped && r.expected && decide (r.runId = k))).length

/-- Declarative tally: the number of non-skipped unexpected results carrying
the given run identity. -/
def tallyUnexpected (results : List TestResult) (k : Option String) : Nat :=
  (results.filter (fun r => !r.skipped && !r.expected && decide (r.runId = k))).length

theorem mem_dedupFirst {α : Type} [DecidableEq α] (a : α) (l : List α) :
    a ∈ dedupFirst l ↔ a ∈ l := by
  induction l using dedupFirst.induct with
  | case1 => simp [dedupFirst]
  | case2 b t ih =>
    rw [dedupFirst]
    by_cases hab : a = b
    · simp [hab]
    · simp only [List.mem_cons, ih, List.mem_filter, decide_eq_true_eq]
      constructor
      · rintro (h | ⟨h, _⟩)
        · exact absurd h hab
        · exact Or.inr h
      · rintro (h | h)
        · exact absurd h hab
        · exact Or.inr ⟨h, hab⟩

theorem nodup_dedupFirst {α : Type} [DecidableEq α] (l : List α) :
    (dedupFirst l).Nodup := by
  induction l using dedupFirst.induct with
  | case1 => simp [dedupFirst]
  | case2 b t ih =>
    rw [dedupFirst]
    simp only [List.nodup_cons]
    refine ⟨?_, ih⟩
    rw [mem_dedupFirst]
    simp [List.mem_filter]

theorem dedupFirst_append_singleton {α : Type} [DecidableEq α] (l : List α) (a : α) :
    dedupFirst (l ++ [a]) = if a ∈ l then dedupFirst l else dedupFirst l ++ [a] := by
  induction l using dedupFirst.induct with
  | case1 => simp [dedupFirst]
  | case2 b t ih =>
    rw [List.cons_append, dedupFirst, List.filter_append]
    by_cases hab : a = b
    · subst hab
      have hfa : ([a]).filter (fun x => decide (x ≠ a)) = [] := by simp
      rw [hfa, List.append_nil]
      simp [dedupFirst]
    · have hfa : ([a]).filter (fun x => decide (x ≠ b)) = [a] := by simp [hab]
      rw [hfa, ih]
      have hmem : a ∈ t.filter (fun x => decide (x ≠ b)) ↔ a ∈ t := by
        simp [List.mem_filter, hab]
      by_cases hat : a ∈ t
      · rw [if_pos (hmem.mpr hat)]
        have : a ∈ b :: t := List.mem_cons_of_mem b hat
        rw [if_pos this, dedupFirst]
      · rw [if_neg (fun h => hat (hmem.mp h))]
        have : a ∉ b :: t := by
          intro h
          rcases List.mem_cons.mp h with h1 | h2
          · exact hab h1
          · exact hat h2
        rw [if_neg this, dedupFirst, List.cons_append]

theorem bumpRun_not_mem (key : Option String) (e d : Bool) :
    ∀ l : List (Option String × Run), key ∉ l.map Prod.fst →
      bumpRun key e d l = l ++ [(key, newRun e d)] := by
  intro l
  induction l with
  | nil => intro _; rfl
  | cons p t ih =>
    intro hmem
    obtain ⟨k, r⟩ := p
    simp only [List.map_cons, List.mem_cons] at hmem
    push_neg at hmem
    rw [bumpRun, if_neg (fun h => hmem.1 h.symm), ih hmem.2, List.cons_append]

theorem bumpRun_map_mem (key : Option String) (e d : Bool)
    (mk : Option String → Run) :
    ∀ l : List (Option String), l.Nodup → key ∈ l →
      bumpRun key e d (l.map (fun k => (k, mk k))) =
        l.map (fun k => (k, if k = key then addResultToRun (mk k) e else mk k)) := by
  intro l
  induction l with
  | nil => intro _ h; simp at h
  | cons b t ih =>
    intro hnd hkey
    rw [List.nodup_cons] at hnd
    by_cases hbk : b = key
    · subst hbk
      simp only [List.map_cons, bumpRun, eq_self_iff_true, if_true]
      congr 1
      apply List.map_congr_left
      intro x hx
      have : x ≠ b := fun h => hnd.1 (h ▸ hx)
      simp [this]
    · rcases List.mem_cons.mp hkey with h1 | h2
      · exact absurd h1.symm hbk
      · simp only [List.map_cons, bumpRun, if_neg hbk, ih hnd.2 h2, hbk, if_false]

theorem keysOf_append_singleton (rs : List TestResult) (r : TestResult) :
    keysOf (rs ++ [r]) = keysOf rs ++ (if r.skipped then [] else [r.runId]) := by
  cases hsk : r.skipped <;> simp [keysOf, List.filter_append, hsk]

theorem tallyExpected_append_singleton (rs : List TestResult) (r : TestResult)
    (k : Option String) :
    tallyExpected (rs ++ [r]) k = tallyExpected rs k +
      (if !r.skipped && r.expected && decide (r.runId = k) then 1 else 0) := by
  by_cases hp : (!r.skipped && r.expected && decide (r.runId = k)) = true <;>
    simp [tallyExpected, List.filter_append, hp]

theorem tallyUnexpected_append_singleton (rs : List TestResult) (r : TestResult)
    (k : Option String) :
    tallyUnexpected (rs ++ [r]) k = tallyUnexpected rs k +
      (if !r.skipped && !r.expected && decide (r.runId = k) then 1 else 0) := by
  by_cases hp : (!r.skipped && !r.expected && decide (r.runId = k)) = true <;>
    simp [tallyUnexpected, List.filter_append, hp]

theorem tallyExpected_eq_zero_of_not_mem (rs : List TestResult)
    (k : Option String) (h : k ∉ keysOf rs) : tallyExpected rs k = 0 := by
  rw [tallyExpected, List.length_eq_zero, List.filter_eq_nil_iff]
  intro a ha hp
  simp only [Bool.and_eq_true, Bool.not_eq_true', decide_eq_true_eq] at hp
  exact h (by
    simp only [keysOf, List.mem_map, List.mem_filter]
    exact ⟨a, ⟨ha, by simp [hp.1.1]⟩, hp.2⟩)

theorem tallyUnexpected_eq_zero_of_not_mem (rs : List TestResult)
    (k : Option String) (h : k ∉ keysOf rs) : tallyUnexpected rs k = 0 := by
  rw [tallyUnexpected, List.length_eq_zero, List.filter_eq_nil_iff]
  intro a ha hp
  simp only [Bool.and_eq_true, Bool.not_eq_true', decide_eq_true_eq] at hp
  exact h (by
    simp only [keysOf, List.mem_map, List.mem_filter]
    exact ⟨a, ⟨ha, by simp [hp.1.1]⟩, hp.2⟩)

theorem groupRuns_eq (dups : List String) (results : List TestResult) :
    groupRuns dups results =
      (dedupFirst (keysOf results)).map
        (fun k => (k, Run.mk (tallyExpected results k) (tallyUnexpected results k)
          (dupFlag dups k))) := by
  induction results using List.reverseRecOn with
  | nil =>
    rw [show keysOf [] = [] from rfl, show dedupFirst ([] : List (Option String)) = []
      from by rw [dedupFirst]]
    rfl
  | append_singleton rs r ih =>
    have hfold : groupRuns dups (rs ++ [r]) =
        (if r.skipped then groupRuns dups rs
         else bumpRun r.runId r.expected (dupFlag dups r.runId) (groupRuns dups rs)) := by
      by_cases hsk : r.skipped <;> simp [groupRuns, List.foldl_append, hsk]
    rw [hfold]
    cases hsk : r.skipped with
    | true =>
      rw [if_pos rfl, ih]
      have hk : keysOf (rs ++ [r]) = keysOf rs := by
        simp [keysOf_append_singleton, hsk]
      rw [hk]
      apply List.map_congr_left
      intro k _
      simp [tallyExpected_append_singleton, tallyUnexpected_append_singleton, hsk]
    | false =>
      rw [if_neg (by simp [hsk]), ih]
      have hk : keysOf (rs ++ [r]) = keysOf rs ++ [r.runId] := by
        simp [keysOf_append_singleton, hsk]
      rw [hk, dedupFirst_append_singleton]
      by_cases hmem : r.runId ∈ keysOf rs
      · rw [if_pos hmem]
        rw [bumpRun_map_mem r.runId r.expected (dupFlag dups r.runId) _ _
          (nodup_dedupFirst _) ((mem_dedupFirst _ _).mpr hmem)]
        apply List.map_congr_left
        intro k _
        by_cases hkk : k = r.runId
        · subst hkk
          have h1 : tallyExpected (rs ++ [r]) r.runId = tallyExpected rs r.runId +
              (if r.expected then 1 else 0) := by
            rw [tallyExpected_append_singleton]
            cases hre : r.expected <;> simp [hsk, hre]
          have h2 : tallyUnexpected (rs ++ [r]) r.runId = tallyUnexpected rs r.runId +
              (if r.expected then 0 else 1) := by
            rw [tallyUnexpected_append_singleton]
            cases hre : r.expected <;> simp [hsk, hre]
          cases hre : r.expected <;>
            simp [addResultToRun, h1, h2, hre]
        · have hne : ¬(r.runId = k) := fun h => hkk h.symm
          simp [hkk, tallyExpected_append_singleton,
            tallyUnexpected_append_singleton, hne]
      · rw [if_neg hmem]
        rw [bumpRun_not_mem _ _ _ _ (by
          simp only [List.map_map]
          rw [show (Prod.fst ∘ fun k => (k, Run.mk (tallyExpected rs k)
              (tallyUnexpected rs k) (dupFlag dups k))) = id from rfl]
          rw [List.map_id]
          exact fun h => hmem ((mem_dedupFirst _ _).mp h))]
        rw [List.map_append]
        congr 1
        · apply List.map_congr_left
          intro k hkmem
          have hkk : k ≠ r.runId := by
            intro h
            exact hmem (h ▸ (mem_dedupFirst _ _).mp hkmem)
          have hne : ¬(r.runId = k) := fun h => hkk h.symm
          simp [tallyExpected_append_singleton,
            tallyUnexpected_append_singleton, hne]
        · have hz1 : tallyExpected rs r.runId = 0 :=
            tallyExpected_eq_zero_of_not_mem _ _ hmem
          have hz2 : tallyUnexpected rs r.runId = 0 :=
            tallyUnexpected_eq_zero_of_not_mem _ _ hmem
          have h1 : tallyExpected (rs ++ [r]) r.runId = if r.expected then 1 else 0 := by
            rw [tallyExpected_append_singleton, hz1]
            cases hre : r.expected <;> simp [hsk, hre]
          have h2 : tallyUnexpected (rs ++ [r]) r.runId = if r.expected then 0 else 1 := by
            rw [tallyUnexpected_append_singleton, hz2]
            cases hre : r.expected <;> simp [hsk, hre]
          simp [newRun, h1, h2]

/-- C9 (amended): the verdict constructor yields a simple-expected verdict
with no details exactly when the grouped bundle has one run (one first-seen
run identity among non-skipped results) consisting of exactly one expected
and no unexpected results, not marked duplicate, and the verdict is not
exonerated; in every other case it yields a non-simple verdict whose details
carry the exoneration flag and one run per run identity whose
expected/unexpected counts equal the raw per-run tallies with skipped
results excluded — the run list holding the non-duplicate runs first and
then the duplicate runs, each group in first-seen order (not the plain
first-seen order of the original claim). -/
theorem ToPositionVerdict_spec (results : List TestResult) (dups : List String)
    (exonerated : Bool) (pos hour : Nat) :
    (ToPositionVerdict results dups exonerated pos hour).commitPosition = pos ∧
    (ToPositionVerdict results dups exonerated pos hour).hour = hour ∧
    ((ToPositionVerdict results dups exonerated pos hour).isSimpleExpected = true ↔
      (∃ k, dedupFirst (keysOf results) = [k] ∧ tallyExpected results k = 1 ∧
        tallyUnexpected results k = 0 ∧ dupFlag dups k = false ∧
        exonerated = false)) ∧
    ((ToPositionVerdict results dups exonerated pos hour).isSimpleExpected = true →
      (ToPositionVerdict results dups exonerated pos hour).details = ⟨false, []⟩) ∧
    ((ToPositionVerdict results dups exonerated pos hour).isSimpleExpected = false →
      (ToPositionVerdict results dups exonerated pos hour).details.isExonerated
          = exonerated ∧
      (ToPositionVerdict results dups exonerated pos hour).details.runs =
        ((dedupFirst (keysOf results)).map (fun k =>
          Run.mk (tallyExpected results k) (tallyUnexpected results k)
            (dupFlag dups k))).filter (fun r => !r.isDuplicate) ++
        ((dedupFirst (keysOf results)).map (fun k =>
          Run.mk (tallyExpected results k) (tallyUnexpected results k)
            (dupFlag dups k))).filter (fun r => r.isDuplicate)) := by
  have hruns : (groupRuns dups results).map Prod.snd =
      (dedupFirst (keysOf results)).map (fun k =>
        Run.mk (tallyExpected results k) (tallyUnexpected results k)
          (dupFlag dups k)) := by
    rw [groupRuns_eq, List.map_map]
    rfl
  simp only [ToPositionVerdict, hruns]
  cases hL : dedupFirst (keysOf results) with
  | nil =>
    simp
  | cons k t =>
    cases t with
    | nil =>
      simp only [List.map_cons, List.map_nil]
      by_cases hp : ((tallyExpected results k = 1 ∧ tallyUnexpected results k = 0) ∧
          dupFlag dups k = false) ∧ exonerated = false
      · have hbool : ((tallyExpected results k == 1) &&
            (tallyUnexpected results k == 0) && !dupFlag dups k && !exonerated)
              = true := by
          simp only [Bool.and_eq_true, beq_iff_eq, Bool.not_eq_true']
          exact hp
        rw [if_pos hbool]
        refine ⟨rfl, rfl, ?_, fun _ => rfl, ?_⟩
        · constructor
          · intro _
            exact ⟨k, rfl, hp.1.1.1, hp.1.1.2, hp.1.2, hp.2⟩
          · intro _
            rfl
        · intro h
          simp at h
      · have hbool : ¬(((tallyExpected results k == 1) &&
            (tallyUnexpected results k == 0) && !dupFlag dups k && !exonerated)
              = true) := by
          simp only [Bool.and_eq_true, beq_iff_eq, Bool.not_eq_true']
          exact hp
        rw [if_neg hbool]
        refine ⟨rfl, rfl, ?_, ?_, fun _ => ⟨rfl, rfl⟩⟩
        · constructor
          · intro h
            simp at h
          · rintro ⟨k', hk', h1, h2, h3, h4⟩
            have hkk : k' = k := by
              simp only [List.cons.injEq] at hk'
              exact hk'.1.symm
            subst hkk
            exact absurd ⟨⟨⟨h1, h2⟩, h3⟩, h4⟩ hp
        · intro h
          simp at h
    | cons k2 t2 =>
      simp

/-- The raw bundle of the repository's "Insert non-simple test variant"
test: three results in run-1, one in run-2, two in run-3, one in run-4,
with run-1 and run-3 marked duplicate. -/
def cexResults : List TestResult :=
  [⟨some "run-1", false, false⟩,
   ⟨some "run-1", false, false⟩,
   ⟨some "run-1", true, false⟩,
   ⟨some "run-2", false, false⟩,
   ⟨some "run-3", true, false⟩,
   ⟨some "run-3", true, false⟩,
   ⟨some "run-4", true, false⟩]

/-- C9 counterexample: on the "Insert non-simple test variant" bundle the
constructor emits the non-duplicate runs (run-2, run-4) before the duplicate
runs (run-1, run-3) — the order the repository's test asserts — which is not
the first-seen order of the run identities (run-1, run-2, run-3, run-4), so
the run list is not ordered by first-seen order as the claim states. -/
theorem ToPositionVerdict_firstSeen_counterexample :
    (ToPositionVerdict cexResults ["run-1", "run-3"] false 12 4).details.runs =
      [⟨0, 1, false⟩, ⟨1, 0, false⟩, ⟨1, 2, true⟩, ⟨2, 0, true⟩] ∧
    (dedupFirst (keysOf cexResults)).map (fun k =>
        Run.mk (tallyExpected cexResults k) (tallyUnexpected cexResults k)
          (dupFlag ["run-1", "run-3"] k)) =
      [⟨1, 2, true⟩, ⟨0, 1, false⟩, ⟨2, 0, true⟩, ⟨1, 0, false⟩] ∧
    (ToPositionVerdict cexResults ["run-1", "run-3"] false 12 4).details.runs ≠
      (dedupFirst (keysOf cexResults)).map (fun k =>
        Run.mk (tallyExpected cexResults k) (tallyUnexpected cexResults k)
          (dupFlag ["run-1", "run-3"] k)) := by
  have hd : dedupFirst (keysOf cexResults) =
      [some "run-1", some "run-2", some "run-3", some "run-4"] := by
    simp [dedupFirst, keysOf, cexResults]
  refine ⟨by decide, ?_, ?_⟩
  · rw [hd]
    decide
  · rw [hd]
    decide

end LuciAnalysis
